import Mathlib

/-!
Shallow embedding of the core of `src/index.js` (the Embed tool for a
block editor): the rule validator `Embed.checkServiceConfig`, the
registry composer `Embed.prepare`, the resolver
`Embed.prototype.performServices`, and the block-state setter
`Embed.prototype.data`.

JavaScript values are modelled by the inductive type `JSVal`.  A RegExp
value is abstracted to its `exec` behaviour (a function from the input
string to `none` for no match, or `some` of the JS match array whose
head is the full match and whose tail is the list of capture groups).
A JS function value (only ever used as a resource-id extractor taking
the array of capture groups and whose result is coerced to a string by
`String.prototype.replace`) is abstracted to `List String → String`.
Objects are association lists of fields in property order.
-/

namespace EmbedTool

/-- JavaScript numbers, as far as the code observes them:
`Number.isFinite` is the only numeric operation used, so the finite
payload is kept abstractly as an integer. -/
inductive JSNum where
  | fin (v : Int)
  | nan
  | posInf
  | negInf
deriving DecidableEq, Repr

/-- JavaScript values as used by the embed tool. -/
inductive JSVal where
  | undefined
  | null
  | bool (b : Bool)
  | num (n : JSNum)
  | str (s : String)
  | regex (e : String → Option (List String))
  | func (f : List String → String)
  | obj (fields : List (String × JSVal))

/-- JS truthiness: `undefined`, `null`, `false`, `0`, `NaN` and the
empty string are falsy; objects, functions and RegExp values are always
truthy. -/
def truthy : JSVal → Bool
  | .undefined => false
  | .null => false
  | .bool b => b
  | .num (.fin v) => v != 0
  | .num .nan => false
  | .num .posInf => true
  | .num .negInf => true
  | .str s => s != ""
  | .regex _ => true
  | .func _ => true
  | .obj _ => true

/-- The value of the JS expression `a && b` (for effect-free operands):
`b` when `a` is truthy, otherwise `a` itself.  Note it does not return
a boolean unless its operands force one. -/
def jsAnd (a b : JSVal) : JSVal :=
  if truthy a then b else a

/-- The value of the JS expression `a || b`: `a` when truthy, else `b`. -/
def jsOr (a b : JSVal) : JSVal :=
  if truthy a then a else b

/-- `typeof v` as a string. -/
def typeofStr : JSVal → String
  | .undefined => "undefined"
  | .null => "object"
  | .bool _ => "boolean"
  | .num _ => "number"
  | .str _ => "string"
  | .regex _ => "object"
  | .func _ => "function"
  | .obj _ => "object"

/-- `v instanceof RegExp`. -/
def isRegExp : JSVal → Bool
  | .regex _ => true
  | _ => false

/-- `v instanceof Function`. -/
def isFunc : JSVal → Bool
  | .func _ => true
  | _ => false

/-- `v instanceof Object`: objects, functions and RegExp values are
instances of `Object`; primitives, `null` and `undefined` are not. -/
def isObjectInstance : JSVal → Bool
  | .obj _ => true
  | .func _ => true
  | .regex _ => true
  | _ => false

/-- `v === undefined`. -/
def isUndefined : JSVal → Bool
  | .undefined => true
  | _ => false

/-- `v === null`. -/
def isNull : JSVal → Bool
  | .null => true
  | _ => false

/-- `v === true` (strict equality against the boolean `true`). -/
def isBoolTrue : JSVal → Bool
  | .bool true => true
  | _ => false

/-- `Number.isFinite(v)`: true exactly for finite numbers, with no
coercion of non-number values. -/
def isFiniteNum : JSVal → Bool
  | .num (.fin _) => true
  | _ => false

/-- First binding of key `k` in an association list of fields. -/
def lookupField : List (String × JSVal) → String → Option JSVal
  | [], _ => none
  | (k, v) :: rest, key => if k == key then some v else lookupField rest key

/-- Property read `v[k]` (as used by destructuring after the null check):
missing properties and reads on primitives give `undefined`. -/
def fieldOf (v : JSVal) (k : String) : JSVal :=
  match v with
  | .obj fs => (lookupField fs k).getD .undefined
  | _ => .undefined

/-- Errors the modelled code can raise. -/
inductive JSError where
  | typeError
  | invalidData
deriving DecidableEq, Repr

/-! ## RuleValidator: `Embed.checkServiceConfig` (src/index.js 331–343) -/

/-- The body of `checkServiceConfig` after destructuring, on the six
destructured field values.  Mirrors:
```
let isValid = regex && regex instanceof RegExp
  && embedUrl && typeof embedUrl === 'string'
  && html && typeof html === 'string';
isValid = isValid && (id !== undefined ? id instanceof Function : true);
isValid = isValid && (height !== undefined ? Number.isFinite(height) : true);
isValid = isValid && (width !== undefined ? Number.isFinite(width) : true);
return isValid;
```
JS `&&` associates to the left and returns an operand, not a boolean. -/
def checkFields (regex embedUrl html height width id : JSVal) : JSVal :=
  let isValid0 :=
    jsAnd (jsAnd (jsAnd (jsAnd (jsAnd regex (.bool (isRegExp regex)))
      embedUrl) (.bool (typeofStr embedUrl == "string")))
      html) (.bool (typeofStr html == "string"))
  let isValid1 := jsAnd isValid0 (.bool (if isUndefined id then true else isFunc id))
  let isValid2 := jsAnd isValid1 (.bool (if isUndefined height then true else isFiniteNum height))
  jsAnd isValid2 (.bool (if isUndefined width then true else isFiniteNum width))

/-- `Embed.checkServiceConfig(config)`.  Destructuring
`const {regex, embedUrl, html, height, width, id} = config` throws a
`TypeError` when `config` is `null` or `undefined`; otherwise the six
fields are read and the validity expression is returned. -/
def checkServiceConfig (config : JSVal) : Except JSError JSVal :=
  if isNull config || isUndefined config then .error .typeError
  else .ok (checkFields (fieldOf config "regex") (fieldOf config "embedUrl")
    (fieldOf config "html") (fieldOf config "height") (fieldOf config "width")
    (fieldOf config "id"))

/-- The spec-side validity predicate of §4.2, on the six fields (spec
names: pattern = `regex`, embedTemplate = `embedUrl`, frameMarkup =
`html`, frameHeight = `height`, frameWidth = `width`, extractId = `id`):
pattern is a RegExp; embedTemplate and frameMarkup are non-empty
strings; extractId, if present, is callable; frameHeight and
frameWidth, if present, are finite numbers. -/
def validFields (regex embedUrl html height width id : JSVal) : Bool :=
  isRegExp regex
    && (truthy embedUrl && typeofStr embedUrl == "string")
    && (truthy html && typeofStr html == "string")
    && (isUndefined id || isFunc id)
    && (isUndefined height || isFiniteNum height)
    && (isUndefined width || isFiniteNum width)

/-- `validFields` read off a whole rule value. -/
def validRule (r : JSVal) : Bool :=
  validFields (fieldOf r "regex") (fieldOf r "embedUrl") (fieldOf r "html")
    (fieldOf r "height") (fieldOf r "width") (fieldOf r "id")

theorem truthy_bool (w : Bool) : truthy (.bool w) = w := rfl

theorem truthy_jsAnd (a b : JSVal) : truthy (jsAnd a b) = (truthy a && truthy b) := by
  unfold jsAnd
  by_cases h : truthy a
  · rw [if_pos h, h, Bool.true_and]
  · rw [if_neg h, eq_false_of_ne_true h, Bool.false_and]

theorem truthy_of_isRegExp (a : JSVal) (h : isRegExp a = true) : truthy a = true := by
  cases a
  case regex => rfl
  all_goals exact absurd h (by intro hh; exact Bool.noConfusion hh)

theorem truthy_and_isRegExp (a : JSVal) : (truthy a && isRegExp a) = isRegExp a := by
  by_cases h : isRegExp a
  · rw [h, truthy_of_isRegExp a h, Bool.true_and]
  · rw [eq_false_of_ne_true h, Bool.and_false]

theorem ternary_eq_or (p q : Bool) : (if p = true then true else q) = (p || q) := by
  cases p
  · rw [if_neg (by intro h; exact Bool.noConfusion h), Bool.false_or]
  · rw [if_pos rfl, Bool.true_or]

/-- The truthiness of the validator result coincides with the spec-side
validity predicate. -/
theorem truthy_checkFields (a b c d e f : JSVal) :
    truthy (checkFields a b c d e f) = validFields a b c d e f := by
  unfold checkFields validFields
  simp only [truthy_jsAnd, truthy_bool, ternary_eq_or]
  rw [truthy_and_isRegExp]
  simp only [Bool.and_assoc]

theorem jsAnd_bool_of_truthy (a : JSVal) (w : Bool)
    (h : truthy (jsAnd a (.bool w)) = true) : jsAnd a (.bool w) = .bool true := by
  unfold jsAnd at h ⊢
  by_cases ha : truthy a
  · rw [if_pos ha] at h ⊢
    rw [truthy_bool] at h
    rw [h]
  · rw [if_neg ha] at h
    exact absurd h ha

/-- The validator expression evaluates to the boolean `true` exactly on
spec-valid field tuples; on all others its value is falsy (though not
necessarily the boolean `false`). -/
theorem checkFields_eq_true_iff (a b c d e f : JSVal) :
    checkFields a b c d e f = .bool true ↔ validFields a b c d e f = true := by
  constructor
  · intro h
    have ht := truthy_checkFields a b c d e f
    rw [h] at ht
    exact ht.symm.trans (truthy_bool true)
  · intro h
    have ht : truthy (checkFields a b c d e f) = true :=
      (truthy_checkFields a b c d e f).trans h
    unfold checkFields at ht ⊢
    exact jsAnd_bool_of_truthy _ _ ht

/-! ## RegistryComposer: `Embed.prepare` (src/index.js 271–323)

Registries, pattern tables and JS objects are all string-keyed
association lists in property order (`Entries`). -/

/-- An association list of string-keyed JS values: the common shape of
`Object.entries` lists, JS object field lists, and the composed
registries. -/
abbrev Entries := List (String × JSVal)

/-- `key in result`. -/
def containsKey (l : Entries) (k : String) : Bool :=
  (lookupField l k).isSome

/-- The JS assignment `result[key] = v`: overwrites the first binding of
`key` in place, or appends a new binding (JS objects keep the original
property position on overwrite and append new keys). -/
def setKey : Entries → String → JSVal → Entries
  | [], key, v => [(key, v)]
  | (k, w) :: rest, key, v =>
    if k == key then (key, v) :: rest else (k, w) :: setKey rest key v

/-- Own enumerable fields of a value: the field list for objects, and
nothing for primitives (string index properties are not used by the
code and are not modelled). -/
def fieldsOf : JSVal → List (String × JSVal)
  | .obj fs => fs
  | _ => []

/-- `Object.assign({}, a, b)`: a fresh object with the fields of `a`
overridden by every own field of `b` — including fields of `b` whose
value is `undefined`. -/
def objectAssign (a b : JSVal) : JSVal :=
  .obj ((fieldsOf b).foldl (fun acc p => setKey acc p.1 p.2) (fieldsOf a))

/-- The enable-list (src/index.js 275–280): keys of the services entries
that are `typeof value === 'boolean' && value === true`. -/
def enabledServices (services : Entries) : List String :=
  (services.filter (fun p => typeofStr p.2 == "boolean" && isBoolTrue p.2)).map
    Prod.fst

/-- The projection of a user-supplied rule to the six known fields
(src/index.js 288–299): fields the rule does not supply are materialized
with the value `undefined`. -/
def projService (v : JSVal) : JSVal :=
  .obj [("regex", fieldOf v "regex"), ("embedUrl", fieldOf v "embedUrl"),
    ("html", fieldOf v "html"), ("height", fieldOf v "height"),
    ("width", fieldOf v "width"), ("id", fieldOf v "id")]

/-- `.filter(([key, service]) => Embed.checkServiceConfig(service))`
over the object-valued entries, in order; a `TypeError` thrown by the
validator (on a `null` entry) aborts composition. -/
def filterValidServices : Entries → Except JSError Entries
  | [] => .ok []
  | (k, v) :: rest => do
    let c ← checkServiceConfig v
    let tail ← filterValidServices rest
    pure (if truthy c then (k, v) :: tail else tail)

/-- The `userServices` list of src/index.js 282–299: object-typed
entries, validated, then projected to the six known fields. -/
def userServices (services : Entries) : Except JSError Entries := do
  let objEntries := services.filter (fun p => typeofStr p.2 == "object")
  let valid ← filterValidServices objEntries
  pure (valid.map (fun p => (p.1, projService p.2)))

/-- The effective base entries (src/index.js 301–303): when the
enable-list is non-empty, the defaults are filtered to the named keys;
otherwise all defaults are kept. -/
def baseEntries (defaults services : Entries) : Entries :=
  let enabled := enabledServices services
  if enabled.isEmpty then defaults
  else defaults.filter (fun p => enabled.contains p.1)

/-- One step of the services reduce (src/index.js 308–314): a key not
yet in the result is stored as is; an already-present key is merged
with `result[key] = Object.assign({}, result[key], service)`. -/
def reduceStep (result : Entries) (p : String × JSVal) : Entries :=
  if containsKey result p.1 then
    setKey result p.1 (objectAssign ((lookupField result p.1).getD .undefined) p.2)
  else result ++ [(p.1, p.2)]

/-- The services reduce of src/index.js 307–315. -/
def reduceServices (entries : Entries) : Entries :=
  entries.foldl reduceStep []

/-- The patterns reduce of src/index.js 317–322: `result[key] =
item.regex`, a later occurrence of a key overwriting an earlier one. -/
def reducePatterns (entries : Entries) : Entries :=
  entries.foldl (fun result p => setKey result p.1 (fieldOf p.2 "regex")) []

/-- `Embed.prepare`: composes the effective registry `Embed.services`
and the pattern table `Embed.patterns` from the defaults table and the
`services` part of the user configuration. -/
def prepare (defaults services : Entries) : Except JSError (Entries × Entries) := do
  let user ← userServices services
  let entries := baseEntries defaults services ++ user
  pure (reduceServices entries, reducePatterns entries)

/-! ## Block state: the `data` setter (src/index.js 79–99) -/

/-- The private `_data` record.  After any assignment it has exactly the
six fields below; a field that was never supplied holds `undefined`,
which is also what reading it off the initial empty `_data = {}`
yields. -/
structure BlockData where
  service : JSVal
  source : JSVal
  embed : JSVal
  width : JSVal
  height : JSVal
  caption : JSVal

/-- The `_data = {}` set up in the constructor: every field reads as
`undefined`. -/
def emptyData : BlockData :=
  ⟨.undefined, .undefined, .undefined, .undefined, .undefined, .undefined⟩

/-- The `data` setter: throws unless the assigned value is an `Object`
instance, then rebuilds `_data` field by field with
`supplied || previous` (and `caption || previous || ''`), where the
destructuring default turns an absent `caption` into `''` first. -/
def dataSet (old : BlockData) (d : JSVal) : Except JSError BlockData :=
  if isObjectInstance d then
    let service := fieldOf d "service"
    let source := fieldOf d "source"
    let embed := fieldOf d "embed"
    let width := fieldOf d "width"
    let height := fieldOf d "height"
    let caption0 := fieldOf d "caption"
    let caption := if isUndefined caption0 then .str "" else caption0
    .ok { service := jsOr service old.service, source := jsOr source old.source,
          embed := jsOr embed old.embed, width := jsOr width old.width,
          height := jsOr height old.height,
          caption := jsOr (jsOr caption old.caption) (.str "") }
  else .error .invalidData

/-! ## ResourceResolver: `Embed.prototype.performServices`
(src/index.js 250–264) -/

/-- The placeholder token of the global replacement
`embedUrl.replace(/<\%\= remote\_id \%\>/g, …)`. -/
def placeholderToken : String := "<%= remote_id %>"

/-- Fuel-driven worker for global, leftmost, non-overlapping textual
replacement of the pattern `p` by `r`: at each position either the
pattern matches and is consumed whole, or one character is emitted.
The fuel is consumed once per emitted unit, so `s.length` fuel always
suffices for a non-empty pattern. -/
def replaceAllAux (p r : List Char) : Nat → List Char → List Char
  | _, [] => []
  | 0, s => s
  | fuel + 1, c :: rest =>
    if p.isPrefixOf (c :: rest) then
      r ++ replaceAllAux p r fuel ((c :: rest).drop p.length)
    else c :: replaceAllAux p r fuel rest

/-- `s.replace(/pattern/g, replacement)` for a literal, non-empty
pattern: every occurrence of the pattern in `s` is replaced, scanning
left to right without overlap.  (JS would additionally expand `$`
sequences inside the replacement string; no `$` ever reaches the
replacement position in this code base's claims and that expansion is
not modelled.) -/
def replaceAll (s pattern replacement : String) : String :=
  String.mk (replaceAllAux pattern.data replacement.data s.data.length s.data)

/-- The default extractor `(ids) => ids.shift()`, composed with the
string coercion applied by `String.prototype.replace` to a non-string
replacement value (`undefined` prints as `"undefined"`). -/
def jsShift (l : List String) : String :=
  (l.head?).getD "undefined"

/-- The body of `performServices` up to the object literal it assigns to
`this.data`: rule lookup and destructuring, `regex.exec(url).slice(1)`,
resource-id extraction, and the global placeholder substitution.  Every
failure of the original (destructuring `undefined`/`null`, calling
`exec`/`replace` on a value that lacks it, `slice` on a `null` match,
calling a non-callable `id`) is a `TypeError`. -/
def performServices (services : Entries) (service url : String) :
    Except JSError JSVal := do
  let rule ← match lookupField services service with
    | none => .error .typeError
    | some r => if isNull r then .error .typeError else .ok r
  let regexV := fieldOf rule "regex"
  let embedUrlV := fieldOf rule "embedUrl"
  let widthV := fieldOf rule "width"
  let heightV := fieldOf rule "height"
  let idV := fieldOf rule "id"
  let execArr ← match regexV with
    | .regex e => .ok (e url)
    | _ => .error .typeError
  let groups ← match execArr with
    | none => .error .typeError
    | some arr => .ok (arr.drop 1)
  let tmpl ← match embedUrlV with
    | .str s => .ok s
    | _ => .error .typeError
  let idStr ← match idV with
    | .undefined => .ok (jsShift groups)
    | .func f => .ok (f groups)
    | _ => .error .typeError
  let embed := replaceAll tmpl placeholderToken idStr
  pure (.obj [("service", .str service), ("source", .str url),
    ("embed", .str embed), ("width", widthV), ("height", heightV)])

/-- `performServices` including its final effect, the assignment
`this.data = {service, source: url, embed, width, height}` through the
`data` setter.  A `TypeError` raised earlier in the body propagates and
the block state is left untouched. -/
def performServicesStep (services : Entries) (service url : String)
    (old : BlockData) : Except JSError BlockData := do
  let descriptor ← performServices services service url
  dataSet old descriptor

/-! ## A concrete pattern: the JS literal `/id=(\w+)/` -/

/-- Word characters of the JS character class `\w`. -/
def isWordChar (c : Char) : Bool :=
  c.isAlphanum || c == '_'

/-- Leftmost-match `exec` semantics of the JS regex literal
`/id=(\w+)/`: scan left to right for `id=` followed by at least one
word character; the match array is `[full match, capture group]`. -/
def execIdPattern : List Char → Option (List String)
  | [] => none
  | c :: rest =>
    if c == 'i' then
      match rest with
      | 'd' :: '=' :: tail =>
        let w := tail.takeWhile isWordChar
        if w.isEmpty then execIdPattern rest
        else some [String.mk ('i' :: 'd' :: '=' :: w), String.mk w]
      | _ => execIdPattern rest
    else execIdPattern rest

/-- The regex value `/id=(\w+)/`. -/
def idPatternVal : JSVal :=
  .regex (fun url => execIdPattern url.data)

/-! ## Association-list toolkit -/

/-- The last binding of a list, as the code's reduces see it (a later
assignment to the same key wins). -/
def lastBinding : Entries → Option (String × JSVal)
  | [] => none
  | [p] => some p
  | _ :: rest => lastBinding rest

/-- Left fold of `Object.assign`-merging a run of later occurrences of
one key over the first stored value. -/
def assignRun (v : JSVal) (occs : Entries) : JSVal :=
  occs.foldl (fun a p => objectAssign a p.2) v

theorem lookupField_setKey_self (l : Entries) (k : String) (v : JSVal) :
    lookupField (setKey l k v) k = some v := by
  induction l with
  | nil => simp [setKey, lookupField]
  | cons p rest ih =>
    obtain ⟨k1, w⟩ := p
    by_cases h : k1 = k
    · simp [setKey, h, lookupField]
    · simp only [setKey, beq_iff_eq, h, if_false, lookupField]
      exact ih

theorem lookupField_setKey_ne (l : Entries) (k k2 : String) (v : JSVal)
    (h : k2 ≠ k) : lookupField (setKey l k v) k2 = lookupField l k2 := by
  induction l with
  | nil => simp [setKey, lookupField, h, Ne.symm h]
  | cons p rest ih =>
    obtain ⟨k1, w⟩ := p
    by_cases h1 : k1 = k
    · subst h1
      simp [setKey, lookupField, Ne.symm h]
    · simp only [setKey, beq_iff_eq, h1, if_false, lookupField]
      by_cases h2 : k1 = k2
      · simp [h2]
      · simp only [beq_iff_eq, h2, if_false]
        exact ih

theorem lookupField_append (a b : Entries) (k : String) :
    lookupField (a ++ b) k =
      match lookupField a k with
      | some v => some v
      | none => lookupField b k := by
  induction a with
  | nil => simp [lookupField]
  | cons p rest ih =>
    obtain ⟨k1, w⟩ := p
    by_cases h : k1 = k
    · simp [lookupField, h]
    · simp only [List.cons_append, lookupField, beq_iff_eq, h, if_false]
      exact ih

theorem containsKey_eq_any (l : Entries) (k : String) :
    containsKey l k = l.any (fun p => p.1 == k) := by
  induction l with
  | nil => rfl
  | cons p rest ih =>
    obtain ⟨k1, w⟩ := p
    by_cases h : k1 = k
    · simp [containsKey, lookupField, h]
    · have hne : (k1 == k) = false := by simp [h]
      simpa [containsKey, lookupField, h, hne] using ih

theorem assignRun_nil (v : JSVal) : assignRun v [] = v := rfl

theorem assignRun_cons (v : JSVal) (p : String × JSVal) (occs : Entries) :
    assignRun v (p :: occs) = assignRun (objectAssign v p.2) occs := rfl

theorem lastBinding_cons_cons (p q : String × JSVal) (l : Entries) :
    lastBinding (p :: q :: l) = lastBinding (q :: l) := rfl

theorem lastBinding_eq_none_iff (l : Entries) : lastBinding l = none ↔ l = [] := by
  induction l with
  | nil => simp [lastBinding]
  | cons p rest ih =>
    cases rest with
    | nil => simp [lastBinding]
    | cons q rs =>
      rw [lastBinding_cons_cons, ih]
      simp

/-- What the services reduce stores under each key: the first occurrence
of the key in the folded entries, `Object.assign`-merged with every
later occurrence in order (or, when the key was already in the
accumulator, the accumulator value merged with every occurrence). -/
theorem foldl_reduceStep_lookup (entries : Entries) : ∀ (acc : Entries) (k : String),
    lookupField (entries.foldl reduceStep acc) k =
      match lookupField acc k, entries.filter (fun p => p.1 == k) with
      | some v, occs => some (assignRun v occs)
      | none, [] => none
      | none, p :: occs => some (assignRun p.2 occs) := by
  induction entries with
  | nil =>
    intro acc k
    simp only [List.foldl_nil, List.filter_nil]
    cases lookupField acc k <;> rfl
  | cons q rest ih =>
    intro acc k
    obtain ⟨k1, v1⟩ := q
    rw [List.foldl_cons]
    by_cases hk : k1 = k
    · subst hk
      have hfilter : ((k1, v1) :: rest).filter (fun p => p.1 == k1)
          = (k1, v1) :: rest.filter (fun p => p.1 == k1) := by
        simp [List.filter_cons]
      rw [hfilter]
      by_cases hc : containsKey acc k1 = true
      · obtain ⟨w, hw⟩ : ∃ w, lookupField acc k1 = some w := by
          cases hlk : lookupField acc k1 with
          | none => simp [containsKey, hlk] at hc
          | some w => exact ⟨w, rfl⟩
        have hstep : reduceStep acc (k1, v1) = setKey acc k1 (objectAssign w v1) := by
          simp [reduceStep, hc, hw]
        rw [hstep, ih, lookupField_setKey_self, hw]
        rfl
      · have hw : lookupField acc k1 = none := by
          cases hlk : lookupField acc k1 with
          | none => rfl
          | some w => exact absurd (by simp [containsKey, hlk]) hc
        have hstep : reduceStep acc (k1, v1) = acc ++ [(k1, v1)] := by
          simp [reduceStep, hc]
        have happ : lookupField (acc ++ [(k1, v1)]) k1 = some v1 := by
          rw [lookupField_append, hw]
          simp [lookupField]
        rw [hstep, ih, happ, hw]
    · have hfilter : ((k1, v1) :: rest).filter (fun p => p.1 == k)
          = rest.filter (fun p => p.1 == k) := by
        simp [List.filter_cons, hk]
      rw [hfilter]
      have hlk : lookupField (reduceStep acc (k1, v1)) k = lookupField acc k := by
        by_cases hc : containsKey acc k1 = true
        · cases hlkk : lookupField acc k1 with
          | none => simp [containsKey, hlkk] at hc
          | some w =>
            have hstep : reduceStep acc (k1, v1) = setKey acc k1 (objectAssign w v1) := by
              simp [reduceStep, hc, hlkk]
            rw [hstep]
            exact lookupField_setKey_ne _ _ _ _ (Ne.symm hk)
        · have hstep : reduceStep acc (k1, v1) = acc ++ [(k1, v1)] := by
            simp [reduceStep, hc]
          rw [hstep, lookupField_append]
          cases hlka : lookupField acc k with
          | some w => rfl
          | none => simp [lookupField, hk]
      rw [ih, hlk]

/-- What a fold of plain keyed assignments (`result[key] = f(entry)`)
stores under each key: the image of the last occurrence of the key. -/
theorem foldl_setKey_lookup (f : String × JSVal → JSVal) (l : Entries) :
    ∀ (acc : Entries) (k : String),
    lookupField (l.foldl (fun r p => setKey r p.1 (f p)) acc) k =
      match lastBinding (l.filter (fun p => p.1 == k)) with
      | some p => some (f p)
      | none => lookupField acc k := by
  induction l with
  | nil =>
    intro acc k
    simp [lastBinding, lookupField]
  | cons q rest ih =>
    intro acc k
    obtain ⟨k1, v1⟩ := q
    rw [List.foldl_cons]
    by_cases hk : k1 = k
    · subst hk
      have hfilter : ((k1, v1) :: rest).filter (fun p => p.1 == k1)
          = (k1, v1) :: rest.filter (fun p => p.1 == k1) := by
        simp [List.filter_cons]
      rw [hfilter, ih]
      cases hrest : rest.filter (fun p => p.1 == k1) with
      | nil =>
        rw [hrest] at *
        simp only [lastBinding]
        rw [lookupField_setKey_self]
      | cons r rs =>
        rw [lastBinding_cons_cons]
        cases hlb : lastBinding (r :: rs) with
        | none => exact absurd ((lastBinding_eq_none_iff _).mp hlb) (by simp)
        | some p => rfl
    · have hfilter : ((k1, v1) :: rest).filter (fun p => p.1 == k)
          = rest.filter (fun p => p.1 == k) := by
        simp [List.filter_cons, hk]
      rw [hfilter, ih]
      cases hlb : lastBinding (rest.filter (fun p => p.1 == k)) with
      | some p => rfl
      | none => exact lookupField_setKey_ne _ _ _ _ (Ne.symm hk)

theorem filter_nil_iff_any_false (p : String × JSVal → Bool) (l : Entries) :
    l.filter p = [] ↔ l.any p = false := by
  induction l with
  | nil => simp
  | cons a rest ih =>
    cases hpa : p a with
    | true => simp [List.filter_cons, hpa]
    | false => simp [List.filter_cons, hpa, ih]

theorem mem_keys_iff_containsKey (l : Entries) (k : String) :
    containsKey l k = true ↔ k ∈ l.map Prod.fst := by
  rw [containsKey_eq_any, List.any_eq_true]
  constructor
  · rintro ⟨p, hp, hpk⟩
    exact List.mem_map.mpr ⟨p, hp, by simpa using hpk⟩
  · intro h
    obtain ⟨p, hp, hpk⟩ := List.mem_map.mp h
    exact ⟨p, hp, by simp [hpk]⟩

theorem containsKey_append (a b : Entries) (k : String) :
    containsKey (a ++ b) k = (containsKey a k || containsKey b k) := by
  simp only [containsKey, lookupField_append]
  cases h : lookupField a k <;> simp

theorem lookupField_eq_some_of_mem (l : Entries) (k : String) (v : JSVal)
    (hnd : (l.map Prod.fst).Nodup) (hmem : (k, v) ∈ l) :
    lookupField l k = some v := by
  induction l with
  | nil => simp at hmem
  | cons p rest ih =>
    obtain ⟨k1, w⟩ := p
    rw [List.map_cons, List.nodup_cons] at hnd
    rcases List.mem_cons.mp hmem with h | h
    · cases h
      simp [lookupField]
    · have hk1 : k1 ≠ k := by
        intro hEq
        subst hEq
        exact hnd.1 (List.mem_map.mpr ⟨(k1, v), h, rfl⟩)
      simp only [lookupField, beq_iff_eq, hk1, if_false]
      exact ih hnd.2 h

theorem mem_of_lookupField_eq_some (l : Entries) (k : String) (v : JSVal)
    (h : lookupField l k = some v) : (k, v) ∈ l := by
  induction l with
  | nil => simp [lookupField] at h
  | cons p rest ih =>
    obtain ⟨k1, w⟩ := p
    by_cases hk : k1 = k
    · subst hk
      simp only [lookupField, beq_self_eq_true, if_pos, Option.some.injEq] at h
      subst h
      exact List.mem_cons_self _ _
    · simp only [lookupField, beq_iff_eq, hk, if_false] at h
      exact List.mem_cons_of_mem _ (ih h)

/-- With duplicate-free keys (the invariant of every JS object), the
occurrences of one key collapse to its unique binding. -/
theorem filter_key_nodup (l : Entries) (k : String)
    (hnd : (l.map Prod.fst).Nodup) :
    l.filter (fun p => p.1 == k) =
      match lookupField l k with
      | some v => [(k, v)]
      | none => [] := by
  induction l with
  | nil => simp [lookupField]
  | cons p rest ih =>
    obtain ⟨k1, w⟩ := p
    rw [List.map_cons, List.nodup_cons] at hnd
    by_cases hk : k1 = k
    · subst hk
      have hrest : rest.filter (fun p => p.1 == k1) = [] := by
        rw [filter_nil_iff_any_false]
        rw [← Bool.not_eq_true, List.any_eq_true]
        rintro ⟨q, hq, hqk⟩
        exact hnd.1 (List.mem_map.mpr ⟨q, hq, by simpa using hqk⟩)
      simp [List.filter_cons, lookupField, hrest]
    · simp only [List.filter_cons, lookupField, beq_iff_eq, hk, if_false]
      exact ih hnd.2

theorem fieldOf_eq_lookup_fieldsOf (b : JSVal) (key : String) :
    fieldOf b key = (lookupField (fieldsOf b) key).getD .undefined := by
  cases b <;> rfl

/-- `Object.assign({}, a, b)` read at one key, for `b` with
duplicate-free field keys: `b`'s binding wins when present, else `a`
shows through. -/
theorem fieldOf_objectAssign (a b : JSVal) (key : String)
    (hb : ((fieldsOf b).map Prod.fst).Nodup) :
    fieldOf (objectAssign a b) key =
      if containsKey (fieldsOf b) key = true then fieldOf b key
      else fieldOf a key := by
  have hfold := foldl_setKey_lookup Prod.snd (fieldsOf b) (fieldsOf a) key
  have hfields : fieldOf (objectAssign a b) key =
      (lookupField ((fieldsOf b).foldl (fun r p => setKey r p.1 p.2) (fieldsOf a)) key).getD
        .undefined := rfl
  rw [hfields, hfold, filter_key_nodup _ _ hb]
  cases hlb : lookupField (fieldsOf b) key with
  | some v =>
    have hc : containsKey (fieldsOf b) key = true := by simp [containsKey, hlb]
    rw [if_pos hc]
    rw [fieldOf_eq_lookup_fieldsOf b key, hlb]
    rfl
  | none =>
    have hc : containsKey (fieldsOf b) key = false := by simp [containsKey, hlb]
    simp only [hc, Bool.false_eq_true, if_false, lastBinding]
    exact (fieldOf_eq_lookup_fieldsOf a key).symm

theorem containsKey_foldl_reduceStep (entries acc : Entries) (k : String) :
    containsKey (entries.foldl reduceStep acc) k
      = (containsKey acc k || entries.any (fun p => p.1 == k)) := by
  simp only [containsKey]
  rw [foldl_reduceStep_lookup]
  cases hla : lookupField acc k with
  | some v =>
    have : containsKey acc k = true := by simp [containsKey, hla]
    simp only [containsKey] at this
    simp [this]
  | none =>
    have hcf : (lookupField acc k).isSome = false := by simp [hla]
    cases hf : entries.filter (fun p => p.1 == k) with
    | nil =>
      have := (filter_nil_iff_any_false _ _).mp hf
      simp [hcf, this]
    | cons q occs =>
      have hqm : q ∈ entries.filter (fun p => p.1 == k) := by
        rw [hf]; exact List.mem_cons_self _ _
      have hq := List.mem_filter.mp hqm
      have : entries.any (fun p => p.1 == k) = true :=
        List.any_eq_true.mpr ⟨q, hq.1, hq.2⟩
      simp [hcf, this]

theorem containsKey_foldl_setKey (f : String × JSVal → JSVal) (l acc : Entries)
    (k : String) :
    containsKey (l.foldl (fun r p => setKey r p.1 (f p)) acc) k
      = (containsKey acc k || l.any (fun p => p.1 == k)) := by
  simp only [containsKey]
  rw [foldl_setKey_lookup]
  cases hlb : lastBinding (l.filter (fun p => p.1 == k)) with
  | some q =>
    have hne : l.filter (fun p => p.1 == k) ≠ [] := by
      intro hnil
      rw [hnil] at hlb
      exact Option.noConfusion hlb
    have : l.any (fun p => p.1 == k) = true := by
      cases ha : l.any (fun p => p.1 == k) with
      | true => rfl
      | false => exact absurd ((filter_nil_iff_any_false _ _).mpr ha) hne
    simp [this]
  | none =>
    have hnil := (lastBinding_eq_none_iff _).mp hlb
    have := (filter_nil_iff_any_false _ _).mp hnil
    simp [this]

/-- The services reduce is the identity on a duplicate-free entry list
(generalized over the accumulator). -/
theorem foldl_reduceStep_eq_append (entries : Entries) : ∀ (acc : Entries),
    (entries.map Prod.fst).Nodup →
    (∀ p ∈ entries, containsKey acc p.1 = false) →
    entries.foldl reduceStep acc = acc ++ entries := by
  induction entries with
  | nil => intro acc _ _; simp
  | cons q rest ih =>
    intro acc hnd hfresh
    obtain ⟨k1, v1⟩ := q
    rw [List.map_cons, List.nodup_cons] at hnd
    have hc : containsKey acc k1 = false := hfresh (k1, v1) (List.mem_cons_self _ _)
    have hstep : reduceStep acc (k1, v1) = acc ++ [(k1, v1)] := by
      simp [reduceStep, hc]
    rw [List.foldl_cons, hstep, ih (acc ++ [(k1, v1)]) hnd.2]
    · simp
    · intro p hp
      rw [containsKey_append]
      have h1 : containsKey acc p.1 = false := hfresh p (List.mem_cons_of_mem _ hp)
      have h2 : containsKey [(k1, v1)] p.1 = false := by
        have hne : k1 ≠ p.1 := by
          intro hEq
          exact hnd.1 (hEq ▸ List.mem_map.mpr ⟨p, hp, rfl⟩)
        simp [containsKey, lookupField, hne]
      rw [h1, h2]
      rfl

/-- `reduceServices` leaves a duplicate-free entry list unchanged. -/
theorem reduceServices_eq_self (entries : Entries)
    (hnd : (entries.map Prod.fst).Nodup) : reduceServices entries = entries := by
  unfold reduceServices
  rw [foldl_reduceStep_eq_append entries [] hnd (fun p _ => rfl)]
  rfl

theorem assignRun_append (v : JSVal) (a b : Entries) :
    assignRun v (a ++ b) = assignRun (assignRun v a) b :=
  List.foldl_append _ _ _ _

theorem lastBinding_concat (l : Entries) (q : String × JSVal) :
    lastBinding (l ++ [q]) = some q := by
  induction l with
  | nil => rfl
  | cons p rest ih =>
    cases rest with
    | nil => rfl
    | cons r rs => simpa [lastBinding_cons_cons] using ih

theorem bind_ok_eq {ε α β : Type} (a : α) (f : α → Except ε β) :
    ((Except.ok a : Except ε α) >>= f) = f a := rfl

theorem bind_error_eq {ε α β : Type} (e : ε) (f : α → Except ε β) :
    ((Except.error e : Except ε α) >>= f) = Except.error e := rfl

theorem map_ok_eq {ε α β : Type} (a : α) (f : α → β) :
    (f <$> (Except.ok a : Except ε α)) = Except.ok (f a) := rfl

theorem map_error_eq {ε α β : Type} (e : ε) (f : α → β) :
    (f <$> (Except.error e : Except ε α)) = Except.error e := rfl

theorem checkServiceConfig_error_eq (v : JSVal) (e : JSError)
    (h : checkServiceConfig v = .error e) : e = .typeError := by
  unfold checkServiceConfig at h
  by_cases hc : (isNull v || isUndefined v) = true
  · rw [if_pos hc] at h
    injection h with h1
    exact h1.symm
  · rw [if_neg hc] at h
    exact Except.noConfusion h

theorem checkServiceConfig_ok_of_not_null (v : JSVal)
    (hnull : isNull v = false) (hundefd : isUndefined v = false) :
    checkServiceConfig v = .ok (checkFields (fieldOf v "regex") (fieldOf v "embedUrl")
      (fieldOf v "html") (fieldOf v "height") (fieldOf v "width") (fieldOf v "id")) := by
  unfold checkServiceConfig
  rw [if_neg]
  simp [hnull, hundefd]

theorem filterValidServices_error_of_null (l : Entries) (k : String)
    (hm : (k, JSVal.null) ∈ l) :
    filterValidServices l = .error .typeError := by
  induction l with
  | nil => simp at hm
  | cons p rest ih =>
    obtain ⟨k1, v1⟩ := p
    rcases List.mem_cons.mp hm with h | h
    · cases h
      rfl
    · cases hc : checkServiceConfig v1 with
      | error e =>
        rw [checkServiceConfig_error_eq v1 e hc] at hc
        simp only [filterValidServices]
        rw [hc]
        rfl
      | ok c => simp [filterValidServices, hc, bind_ok_eq, ih h, map_error_eq]

theorem filterValidServices_sublist (l : Entries) : ∀ (out : Entries),
    filterValidServices l = .ok out → out.Sublist l := by
  induction l with
  | nil =>
    intro out h
    injection h with h1
    rw [← h1]
  | cons p rest ih =>
    intro out h
    obtain ⟨k1, v1⟩ := p
    cases hc : checkServiceConfig v1 with
    | error e => simp [filterValidServices, hc, bind_error_eq] at h
    | ok c =>
      cases hrec : filterValidServices rest with
      | error e => simp [filterValidServices, hc, hrec, bind_ok_eq, map_error_eq] at h
      | ok tail =>
        have hout : out = if truthy c then (k1, v1) :: tail else tail := by
          have := h
          simp [filterValidServices, hc, hrec, bind_ok_eq, map_ok_eq] at this
          exact this.symm
        by_cases ht : truthy c = true
        · rw [hout, if_pos ht]
          exact (ih tail hrec).cons₂ _
        · rw [hout, if_neg ht]
          exact (ih tail hrec).cons _

theorem mem_filterValidServices (l : Entries) : ∀ (out : Entries) (k : String)
    (v c : JSVal), filterValidServices l = .ok out → (k, v) ∈ l →
    checkServiceConfig v = .ok c → truthy c = true → (k, v) ∈ out := by
  induction l with
  | nil =>
    intro out k v c _ hm
    simp at hm
  | cons p rest ih =>
    intro out k v c h hm hc ht
    obtain ⟨k1, v1⟩ := p
    cases hc1 : checkServiceConfig v1 with
    | error e => simp [filterValidServices, hc1, bind_error_eq] at h
    | ok c1 =>
      cases hrec : filterValidServices rest with
      | error e => simp [filterValidServices, hc1, hrec, bind_ok_eq, map_error_eq] at h
      | ok tail =>
        have hout : out = if truthy c1 then (k1, v1) :: tail else tail := by
          have := h
          simp [filterValidServices, hc1, hrec, bind_ok_eq, map_ok_eq] at this
          exact this.symm
        rcases List.mem_cons.mp hm with hh | hh
        · cases hh
          rw [hc1] at hc
          injection hc with hcc
          rw [hout, if_pos (hcc ▸ ht)]
          exact List.mem_cons_self _ _
        · have htail : (k, v) ∈ tail := ih tail k v c hrec hh hc ht
          rw [hout]
          by_cases ht1 : truthy c1 = true
          · rw [if_pos ht1]
            exact List.mem_cons_of_mem _ htail
          · rw [if_neg ht1]
            exact htail

theorem filterValidServices_all_dropped (l : Entries)
    (h : ∀ p ∈ l, ∃ c, checkServiceConfig p.2 = .ok c ∧ truthy c = false) :
    filterValidServices l = .ok [] := by
  induction l with
  | nil => rfl
  | cons p rest ih =>
    obtain ⟨c, hc, ht⟩ := h p (List.mem_cons_self _ _)
    have hrec := ih (fun q hq => h q (List.mem_cons_of_mem _ hq))
    obtain ⟨k1, v1⟩ := p
    simp [filterValidServices, hc, hrec, ht, bind_ok_eq, map_ok_eq]

theorem prepare_ok_inv (defaults services : Entries) (reg pats : Entries)
    (h : prepare defaults services = .ok (reg, pats)) :
    ∃ user, userServices services = .ok user ∧
      reg = reduceServices (baseEntries defaults services ++ user) ∧
      pats = reducePatterns (baseEntries defaults services ++ user) := by
  cases hu : userServices services with
  | error e => simp [prepare, hu] at h
  | ok user =>
    have h2 : Except.ok (reduceServices (baseEntries defaults services ++ user),
        reducePatterns (baseEntries defaults services ++ user))
        = (Except.ok (reg, pats) : Except JSError (Entries × Entries)) := by
      rw [← h]
      simp [prepare, hu, bind_ok_eq, map_ok_eq]
    injection h2 with h3
    exact ⟨user, rfl, (congrArg Prod.fst h3).symm, (congrArg Prod.snd h3).symm⟩

theorem userServices_keys_nodup (services user : Entries)
    (hndS : (services.map Prod.fst).Nodup)
    (h : userServices services = .ok user) :
    (user.map Prod.fst).Nodup := by
  cases hv : filterValidServices (services.filter (fun p => typeofStr p.2 == "object")) with
  | error e => simp [userServices, hv] at h
  | ok valid =>
    have huser : user = valid.map (fun p => (p.1, projService p.2)) := by
      have := h
      simp [userServices, hv] at this
      exact this.symm
    have hkeys : user.map Prod.fst = valid.map Prod.fst := by
      rw [huser, List.map_map]
      rfl
    rw [hkeys]
    have h1 : valid.Sublist (services.filter (fun p => typeofStr p.2 == "object")) :=
      filterValidServices_sublist _ _ hv
    have h2 := h1.trans (List.filter_sublist services)
    exact hndS.sublist (h2.map Prod.fst)

theorem mem_userServices (services user : Entries) (k : String) (v c : JSVal)
    (h : userServices services = .ok user)
    (hm : (k, v) ∈ services) (hobj : typeofStr v = "object")
    (hc : checkServiceConfig v = .ok c) (ht : truthy c = true) :
    (k, projService v) ∈ user := by
  cases hv : filterValidServices (services.filter (fun p => typeofStr p.2 == "object")) with
  | error e => simp [userServices, hv] at h
  | ok valid =>
    have huser : user = valid.map (fun p => (p.1, projService p.2)) := by
      have := h
      simp [userServices, hv] at this
      exact this.symm
    have hmf : (k, v) ∈ services.filter (fun p => typeofStr p.2 == "object") :=
      List.mem_filter.mpr ⟨hm, by simp [hobj]⟩
    have hmv : (k, v) ∈ valid := mem_filterValidServices _ _ _ _ _ hv hmf hc ht
    rw [huser]
    exact List.mem_map.mpr ⟨(k, v), hmv, rfl⟩

theorem baseEntries_keys_nodup (defaults services : Entries)
    (hndD : (defaults.map Prod.fst).Nodup) :
    ((baseEntries defaults services).map Prod.fst).Nodup := by
  unfold baseEntries
  by_cases h : (enabledServices services).isEmpty = true
  · rw [if_pos h]
    exact hndD
  · rw [if_neg h]
    exact hndD.sublist ((List.filter_sublist _).map Prod.fst)

theorem mem_defaults_of_mem_baseEntries (defaults services : Entries)
    (p : String × JSVal) (h : p ∈ baseEntries defaults services) : p ∈ defaults := by
  unfold baseEntries at h
  by_cases hc : (enabledServices services).isEmpty = true
  · rw [if_pos hc] at h
    exact h
  · rw [if_neg hc] at h
    exact List.mem_of_mem_filter h

theorem except_map_ok {ε α β : Type} (a : α) (f : α → β) :
    (Except.ok a : Except ε α).map f = Except.ok (f a) := rfl

/-- A concrete RegExp value used as a test input (its `exec` matches
nothing). -/
def sampleRegex : JSVal := .regex (fun _ => none)

/-! ## Claim theorems -/

/-- C1 (counterexample): the empty rule object is invalid, yet
`checkServiceConfig` returns the value `undefined` on it — the first
falsy `&&` operand — not the boolean `false` the claim states. -/
theorem checkServiceConfig_empty_rule_returns_undefined :
    validRule (.obj []) = false
    ∧ checkServiceConfig (.obj []) = .ok .undefined
    ∧ JSVal.undefined ≠ .bool false :=
  ⟨rfl, rfl, fun h => JSVal.noConfusion h⟩

/-- C1 (amended): on every rule object, `checkServiceConfig` never
raises; it returns the boolean `true` exactly when the rule satisfies
the spec conditions (pattern is a RegExp, embedTemplate and frameMarkup
are non-empty strings, extractId if present is callable, frameHeight
and frameWidth if present are finite numbers); on every other rule
object it returns a falsy value, though not always the boolean
`false`. -/
theorem checkServiceConfig_isValid_characterization (fs : List (String × JSVal)) :
    (checkServiceConfig (.obj fs) = .ok (.bool true) ↔ validRule (.obj fs) = true)
    ∧ ∃ v, checkServiceConfig (.obj fs) = .ok v
        ∧ (validRule (.obj fs) = false → truthy v = false) := by
  have hobj : checkServiceConfig (.obj fs)
      = .ok (checkFields (fieldOf (.obj fs) "regex") (fieldOf (.obj fs) "embedUrl")
        (fieldOf (.obj fs) "html") (fieldOf (.obj fs) "height")
        (fieldOf (.obj fs) "width") (fieldOf (.obj fs) "id")) := rfl
  constructor
  · rw [hobj]
    constructor
    · intro h
      injection h with h1
      exact (checkFields_eq_true_iff _ _ _ _ _ _).mp h1
    · intro h
      rw [(checkFields_eq_true_iff _ _ _ _ _ _).mpr h]
  · refine ⟨_, hobj, ?_⟩
    intro hinv
    rw [truthy_checkFields]
    exact hinv

/-- C1 (witness): the characterization evaluated at a concrete rule
object missing its pattern. -/
theorem checkServiceConfig_isValid_characterization_witness :
    (checkServiceConfig (.obj [("embedUrl", .str "e")]) = .ok (.bool true)
        ↔ validRule (.obj [("embedUrl", .str "e")]) = true)
    ∧ ∃ v, checkServiceConfig (.obj [("embedUrl", .str "e")]) = .ok v
        ∧ (validRule (.obj [("embedUrl", .str "e")]) = false → truthy v = false) :=
  checkServiceConfig_isValid_characterization [("embedUrl", .str "e")]

/-- C9: a services map that binds any key to `null` makes composition
throw a `TypeError`: `typeof null` is `"object"`, so the entry passes
the object filter, and the validator then destructures `null`. -/
theorem prepare_null_service_raises (defaults services : Entries) (k : String)
    (hm : (k, JSVal.null) ∈ services) :
    prepare defaults services = .error .typeError := by
  have hobj : (k, JSVal.null) ∈ services.filter (fun p => typeofStr p.2 == "object") :=
    List.mem_filter.mpr ⟨hm, by simp [typeofStr]⟩
  have herr := filterValidServices_error_of_null _ k hobj
  simp [prepare, userServices, herr, bind_error_eq, map_error_eq]

/-- C9 (witness): composition of any defaults with `{k: null}` throws. -/
theorem prepare_null_service_raises_witness :
    (("k", JSVal.null) ∈ ([("k", JSVal.null)] : Entries))
    ∧ prepare [] [("k", JSVal.null)] = .error .typeError :=
  ⟨List.mem_singleton.mpr rfl,
    prepare_null_service_raises [] [("k", JSVal.null)] "k" (List.mem_singleton.mpr rfl)⟩

/-- C4: entries whose value is exactly the boolean `true` form an
enable-list; when it is non-empty the base registry is the defaults
filtered to exactly the named keys, when it is empty the full defaults
are kept, and composing defaults with `{A: true}` yields exactly the
defaults restricted to key `A`. -/
theorem enable_list_filters_defaults (defaults services : Entries) (A : String)
    (hnd : (defaults.map Prod.fst).Nodup) :
    (enabledServices services ≠ [] →
      baseEntries defaults services
        = defaults.filter (fun p => (enabledServices services).contains p.1))
    ∧ (enabledServices services = [] → baseEntries defaults services = defaults)
    ∧ (prepare defaults [(A, .bool true)]).map Prod.fst
        = .ok (defaults.filter (fun p => p.1 == A)) := by
  refine ⟨?_, ?_, ?_⟩
  · intro h
    unfold baseEntries
    rw [if_neg]
    simp [List.isEmpty_iff, h]
  · intro h
    unfold baseEntries
    rw [if_pos]
    simp [List.isEmpty_iff, h]
  · have hu : userServices [(A, .bool true)] = .ok [] := rfl
    have he : enabledServices [(A, .bool true)] = [A] := rfl
    have hb : baseEntries defaults [(A, .bool true)]
        = defaults.filter (fun p => ([A] : List String).contains p.1) := by
      unfold baseEntries
      rw [he]
      rfl
    have hfc : defaults.filter (fun p => ([A] : List String).contains p.1)
        = defaults.filter (fun p => p.1 == A) := by
      apply List.filter_congr
      intro p _
      simp only [List.contains, List.elem]
      cases p.1 == A <;> rfl
    have hnd2 : ((defaults.filter (fun p => p.1 == A)).map Prod.fst).Nodup :=
      hnd.sublist ((List.filter_sublist _).map Prod.fst)
    have hp : prepare defaults [(A, .bool true)]
        = .ok (reduceServices (baseEntries defaults [(A, .bool true)] ++ []),
            reducePatterns (baseEntries defaults [(A, .bool true)] ++ [])) := by
      simp [prepare, hu, bind_ok_eq, map_ok_eq]
    rw [hp, except_map_ok, List.append_nil, hb, hfc, reduceServices_eq_self _ hnd2]

/-- C4 (witness): the enable-list instance at a two-entry defaults
table. -/
theorem enable_list_filters_defaults_witness :
    (([("A", JSVal.obj []), ("B", JSVal.obj [])].map
        (Prod.fst (β := JSVal))).Nodup)
    ∧ (prepare [("A", JSVal.obj []), ("B", JSVal.obj [])]
        [("A", .bool true)]).map Prod.fst = .ok [("A", JSVal.obj [])] := by
  have hnd : (([("A", JSVal.obj []), ("B", JSVal.obj [])] : Entries).map Prod.fst).Nodup := by
    simp
  refine ⟨hnd, ?_⟩
  exact ((enable_list_filters_defaults
    [("A", JSVal.obj []), ("B", JSVal.obj [])] [] "A" hnd).2.2).trans rfl

/-- C5 (counterexample): a user configuration whose only object-valued
entry fails validation, but which also carries an enable-flag, does not
compose back to the defaults: the enable-flag filters the base, so the
result is empty rather than equal to the defaults. -/
theorem prepare_invalid_dropped_counterexample :
    typeofStr (.obj []) = "object"
    ∧ checkServiceConfig (.obj []) = .ok .undefined
    ∧ truthy .undefined = false
    ∧ prepare [("D", .obj [])] [("X", .bool true), ("bad", .obj [])] = .ok ([], [])
    ∧ ([] : Entries) ≠ [("D", JSVal.obj [])] :=
  ⟨rfl, rfl, rfl, rfl, fun h => List.noConfusion h⟩

/-- C5 (amended): for a user configuration with no `true`-valued enable
entries and whose object-typed services entries all fail validation
(returning a falsy validator value, which excludes `null` entries),
composition neither raises nor changes anything: the result is exactly
the defaults, with every invalid rule dropped whole. -/
theorem prepare_invalid_custom_rules_dropped (defaults services : Entries)
    (hnd : (defaults.map Prod.fst).Nodup)
    (hnotrue : ∀ p ∈ services, isBoolTrue p.2 = false)
    (hdrop : ∀ p ∈ services, typeofStr p.2 = "object" →
      ∃ c, checkServiceConfig p.2 = .ok c ∧ truthy c = false) :
    prepare defaults services = .ok (defaults, reducePatterns defaults) := by
  have he : enabledServices services = [] := by
    unfold enabledServices
    have hf : services.filter
        (fun p => typeofStr p.2 == "boolean" && isBoolTrue p.2) = [] := by
      rw [filter_nil_iff_any_false]
      rw [← Bool.not_eq_true, List.any_eq_true]
      rintro ⟨p, hp, hpp⟩
      rw [hnotrue p hp] at hpp
      simp at hpp
    rw [hf]
    rfl
  have hb : baseEntries defaults services = defaults := by
    unfold baseEntries
    rw [he]
    rfl
  have hfv : filterValidServices
      (services.filter (fun p => typeofStr p.2 == "object")) = .ok [] := by
    apply filterValidServices_all_dropped
    intro p hp
    have hmem := List.mem_filter.mp hp
    exact hdrop p hmem.1 (by simpa using hmem.2)
  have hu : userServices services = .ok [] := by
    simp [userServices, hfv, bind_ok_eq, map_ok_eq]
  have hself := reduceServices_eq_self defaults hnd
  simp [prepare, hu, hb, bind_ok_eq, map_ok_eq, hself]

/-- C5 (witness): dropping a single invalid custom rule leaves a
one-entry defaults table untouched. -/
theorem prepare_invalid_custom_rules_dropped_witness :
    (([("D", JSVal.obj [("regex", JSVal.str "r")])].map
        (Prod.fst (β := JSVal))).Nodup)
    ∧ prepare [("D", JSVal.obj [("regex", JSVal.str "r")])] [("bad", JSVal.obj [])]
        = .ok ([("D", JSVal.obj [("regex", JSVal.str "r")])],
            [("D", JSVal.str "r")]) := by
  refine ⟨by simp, ?_⟩
  have h := prepare_invalid_custom_rules_dropped
    [("D", JSVal.obj [("regex", JSVal.str "r")])] [("bad", JSVal.obj [])]
    (by simp)
    (by
      intro p hp
      rw [List.mem_singleton.mp hp]
      rfl)
    (by
      intro p hp _
      rw [List.mem_singleton.mp hp]
      exact ⟨.undefined, rfl, rfl⟩)
  exact h.trans rfl

theorem projService_fields_keys (v : JSVal) :
    (fieldsOf (projService v)).map Prod.fst
      = ["regex", "embedUrl", "html", "height", "width", "id"] := rfl

theorem projService_keys_nodup (v : JSVal) :
    ((fieldsOf (projService v)).map Prod.fst).Nodup := by
  rw [projService_fields_keys]
  decide

theorem fieldOf_projService (v : JSVal) (f : String) :
    fieldOf (projService v) f =
      if containsKey (fieldsOf (projService v)) f = true then fieldOf v f
      else .undefined := by
  by_cases h1 : "regex" = f
  · subst h1; rfl
  by_cases h2 : "embedUrl" = f
  · subst h2; rfl
  by_cases h3 : "html" = f
  · subst h3; rfl
  by_cases h4 : "height" = f
  · subst h4; rfl
  by_cases h5 : "width" = f
  · subst h5; rfl
  by_cases h6 : "id" = f
  · subst h6; rfl
  have hck : containsKey (fieldsOf (projService v)) f = false := by
    simp [containsKey, lookupField, projService, fieldsOf, h1, h2, h3, h4, h5, h6]
  rw [hck]
  simp only [Bool.false_eq_true, if_false]
  simp [fieldOf, projService, lookupField, h1, h2, h3, h4, h5, h6]

/-- C2 (counterexample): merging a valid custom rule that omits the
optional `height` over a default that supplies it does not retain the
default's height — the projection materializes `height: undefined` and
`Object.assign` copies it over, so the merged record's height is
`undefined`, not the default's `100`. -/
theorem prepare_merge_loses_default_height :
    validRule (.obj [("regex", sampleRegex), ("embedUrl", .str "e"), ("html", .str "h")])
      = true
    ∧ prepare
        [("A", .obj [("regex", sampleRegex), ("embedUrl", .str "d"),
          ("html", .str "m"), ("height", .num (.fin 100))])]
        [("A", .obj [("regex", sampleRegex), ("embedUrl", .str "e"), ("html", .str "h")])]
      = .ok ([("A", .obj [("regex", sampleRegex), ("embedUrl", .str "e"),
          ("html", .str "h"), ("height", .undefined), ("width", .undefined), ("id", .undefined)])],
          [("A", sampleRegex)])
    ∧ fieldOf (.obj [("regex", sampleRegex), ("embedUrl", .str "e"),
        ("html", .str "h"), ("height", .undefined), ("width", .undefined), ("id", .undefined)]) "height"
      = .undefined
    ∧ JSVal.undefined ≠ .num (.fin 100) :=
  ⟨rfl, rfl, rfl, fun h => JSVal.noConfusion h⟩

/-- C2 (amended): when a valid custom rule shares its key with an entry
of the (possibly filtered) base registry, the composed entry is
`Object.assign({}, default, projection)` where the projection carries
all six known fields (those the custom rule omitted as `undefined`).
Each of the six fields therefore reads as the custom rule's field —
supplied fields override, omitted optional fields become `undefined`
rather than retaining the default — while fields outside the six retain
the default's value. -/
theorem custom_rule_merge_overwrites_all_six (defaults services : Entries)
    (A : String) (custom dflt : JSVal) (reg pats : Entries)
    (hndD : (defaults.map Prod.fst).Nodup)
    (hndS : (services.map Prod.fst).Nodup)
    (hsvc : lookupField services A = some custom)
    (hobj : typeofStr custom = "object")
    (hvalid : ∃ c, checkServiceConfig custom = .ok c ∧ truthy c = true)
    (hbase : lookupField (baseEntries defaults services) A = some dflt)
    (hp : prepare defaults services = .ok (reg, pats)) :
    lookupField reg A = some (objectAssign dflt (projService custom))
    ∧ (∀ f, containsKey (fieldsOf (projService custom)) f = true →
        fieldOf (objectAssign dflt (projService custom)) f = fieldOf custom f)
    ∧ (∀ f, containsKey (fieldsOf (projService custom)) f = false →
        fieldOf (objectAssign dflt (projService custom)) f = fieldOf dflt f) := by
  obtain ⟨user, hu, hreg, hpats⟩ := prepare_ok_inv _ _ _ _ hp
  obtain ⟨c, hc, ht⟩ := hvalid
  have hndU := userServices_keys_nodup _ _ hndS hu
  have hmemS : (A, custom) ∈ services := mem_of_lookupField_eq_some _ _ _ hsvc
  have hmemU : (A, projService custom) ∈ user :=
    mem_userServices _ _ _ _ _ hu hmemS hobj hc ht
  have hlkU : lookupField user A = some (projService custom) :=
    lookupField_eq_some_of_mem _ _ _ hndU hmemU
  have hndB := baseEntries_keys_nodup defaults services hndD
  have hfB : (baseEntries defaults services).filter (fun p => p.1 == A)
      = [(A, dflt)] := by
    rw [filter_key_nodup _ _ hndB, hbase]
  have hfU : user.filter (fun p => p.1 == A) = [(A, projService custom)] := by
    rw [filter_key_nodup _ _ hndU, hlkU]
  refine ⟨?_, ?_, ?_⟩
  · rw [hreg]
    unfold reduceServices
    rw [foldl_reduceStep_lookup, List.filter_append, hfB, hfU]
    rfl
  · intro f hf
    rw [fieldOf_objectAssign _ _ _ (projService_keys_nodup custom), if_pos hf,
      fieldOf_projService, if_pos hf]
  · intro f hf
    rw [fieldOf_objectAssign _ _ _ (projService_keys_nodup custom), if_neg]
    rw [hf]
    exact Bool.false_ne_true

/-- C2 (witness): the merge characterization at the concrete
default/custom pair of the counterexample: the supplied `embedUrl`
overrides and the omitted `height` reads as the custom rule's
(undefined) field, not the default's. -/
theorem custom_rule_merge_overwrites_all_six_witness :
    lookupField
        [("A", JSVal.obj [("regex", sampleRegex), ("embedUrl", .str "e"),
          ("html", .str "h"), ("height", .undefined), ("width", .undefined), ("id", .undefined)])]
        "A"
      = some (objectAssign
          (.obj [("regex", sampleRegex), ("embedUrl", .str "d"),
            ("html", .str "m"), ("height", .num (.fin 100))])
          (projService (.obj [("regex", sampleRegex), ("embedUrl", .str "e"),
            ("html", .str "h")])))
    ∧ fieldOf (objectAssign
          (.obj [("regex", sampleRegex), ("embedUrl", .str "d"),
            ("html", .str "m"), ("height", .num (.fin 100))])
          (projService (.obj [("regex", sampleRegex), ("embedUrl", .str "e"),
            ("html", .str "h")]))) "height"
      = fieldOf (.obj [("regex", sampleRegex), ("embedUrl", .str "e"),
          ("html", .str "h")]) "height" := by
  have h := custom_rule_merge_overwrites_all_six
    [("A", .obj [("regex", sampleRegex), ("embedUrl", .str "d"),
      ("html", .str "m"), ("height", .num (.fin 100))])]
    [("A", .obj [("regex", sampleRegex), ("embedUrl", .str "e"), ("html", .str "h")])]
    "A"
    (.obj [("regex", sampleRegex), ("embedUrl", .str "e"), ("html", .str "h")])
    (.obj [("regex", sampleRegex), ("embedUrl", .str "d"),
      ("html", .str "m"), ("height", .num (.fin 100))])
    [("A", JSVal.obj [("regex", sampleRegex), ("embedUrl", .str "e"),
      ("html", .str "h"), ("height", .undefined), ("width", .undefined), ("id", .undefined)])]
    [("A", sampleRegex)]
    (by simp) (by simp) rfl rfl ⟨.bool true, rfl, rfl⟩ rfl rfl
  exact ⟨h.1, h.2.1 "height" rfl⟩

/-- C10: a valid custom rule under a key new to the base registry is
stored as exactly its six-field projection: the entry's field keys are
precisely `regex`, `embedUrl`, `html`, `height`, `width`, `id`, and any
other field of the user's rule object reads as `undefined` in the
composed entry. -/
theorem new_custom_key_projected_to_six (defaults services : Entries)
    (A : String) (custom : JSVal) (reg pats : Entries)
    (hndS : (services.map Prod.fst).Nodup)
    (hsvc : lookupField services A = some custom)
    (hobj : typeofStr custom = "object")
    (hvalid : ∃ c, checkServiceConfig custom = .ok c ∧ truthy c = true)
    (hnew : containsKey (baseEntries defaults services) A = false)
    (hp : prepare defaults services = .ok (reg, pats)) :
    lookupField reg A = some (projService custom)
    ∧ (fieldsOf (projService custom)).map Prod.fst
        = ["regex", "embedUrl", "html", "height", "width", "id"]
    ∧ ∀ f, containsKey (fieldsOf (projService custom)) f = false →
        fieldOf (projService custom) f = .undefined := by
  obtain ⟨user, hu, hreg, hpats⟩ := prepare_ok_inv _ _ _ _ hp
  obtain ⟨c, hc, ht⟩ := hvalid
  have hndU := userServices_keys_nodup _ _ hndS hu
  have hmemS := mem_of_lookupField_eq_some _ _ _ hsvc
  have hmemU := mem_userServices _ _ _ _ _ hu hmemS hobj hc ht
  have hlkU := lookupField_eq_some_of_mem _ _ _ hndU hmemU
  have hfB : (baseEntries defaults services).filter (fun p => p.1 == A) = [] := by
    rw [filter_nil_iff_any_false, ← containsKey_eq_any]
    exact hnew
  have hfU : user.filter (fun p => p.1 == A) = [(A, projService custom)] := by
    rw [filter_key_nodup _ _ hndU, hlkU]
  refine ⟨?_, rfl, ?_⟩
  · rw [hreg]
    unfold reduceServices
    rw [foldl_reduceStep_lookup, List.filter_append, hfB, hfU]
    rfl
  · intro f hf
    rw [fieldOf_projService, hf]
    exact if_neg Bool.false_ne_true

/-- C10 (witness): a custom rule carrying an extra `foo` field is
projected to the six known fields; `foo` reads as `undefined` in the
stored entry. -/
theorem new_custom_key_projected_to_six_witness :
    lookupField
        [("new", projService (.obj [("regex", sampleRegex), ("embedUrl", .str "e"),
          ("html", .str "h"), ("foo", .str "bar")]))]
        "new"
      = some (projService (.obj [("regex", sampleRegex), ("embedUrl", .str "e"),
          ("html", .str "h"), ("foo", .str "bar")]))
    ∧ fieldOf (projService (.obj [("regex", sampleRegex), ("embedUrl", .str "e"),
        ("html", .str "h"), ("foo", .str "bar")])) "foo" = .undefined := by
  have h := new_custom_key_projected_to_six
    []
    [("new", .obj [("regex", sampleRegex), ("embedUrl", .str "e"),
      ("html", .str "h"), ("foo", .str "bar")])]
    "new"
    (.obj [("regex", sampleRegex), ("embedUrl", .str "e"),
      ("html", .str "h"), ("foo", .str "bar")])
    [("new", projService (.obj [("regex", sampleRegex), ("embedUrl", .str "e"),
      ("html", .str "h"), ("foo", .str "bar")]))]
    [("new", sampleRegex)]
    (by simp) rfl rfl ⟨.bool true, rfl, rfl⟩ rfl rfl
  exact ⟨h.1, h.2.2 "foo" rfl⟩

theorem mem_userServices_proj (services user : Entries)
    (h : userServices services = .ok user)
    (p : String × JSVal) (hm : p ∈ user) : ∃ v, p.2 = projService v := by
  cases hv : filterValidServices (services.filter (fun p => typeofStr p.2 == "object")) with
  | error e => simp [userServices, hv] at h
  | ok valid =>
    have huser : user = valid.map (fun p => (p.1, projService p.2)) := by
      have := h
      simp [userServices, hv, bind_ok_eq, map_ok_eq] at this
      exact this.symm
    rw [huser] at hm
    obtain ⟨q, _, hqe⟩ := List.mem_map.mp hm
    exact ⟨q.2, by rw [← hqe]⟩

/-- C8: after composition the pattern table has exactly the key set of
the final registry, and each key maps to the `regex` field of that
key's final registry entry (including merged entries, whose `regex` is
the last occurrence's — which is also what the registry merge stores,
since every entry value carries a `regex` field). -/
theorem patterns_project_registry (defaults services reg pats : Entries)
    (hdef : ∀ p ∈ defaults, ((fieldsOf p.2).map Prod.fst).Nodup
      ∧ containsKey (fieldsOf p.2) "regex" = true)
    (hp : prepare defaults services = .ok (reg, pats)) :
    ∀ k, containsKey pats k = containsKey reg k
      ∧ lookupField pats k = (lookupField reg k).map (fun v => fieldOf v "regex") := by
  obtain ⟨user, hu, hreg, hpats⟩ := prepare_ok_inv _ _ _ _ hp
  have hgood : ∀ p ∈ baseEntries defaults services ++ user,
      ((fieldsOf p.2).map Prod.fst).Nodup
        ∧ containsKey (fieldsOf p.2) "regex" = true := by
    intro p hpm
    rcases List.mem_append.mp hpm with hb | hu2
    · exact hdef p (mem_defaults_of_mem_baseEntries _ _ _ hb)
    · obtain ⟨v, hv⟩ := mem_userServices_proj _ _ hu p hu2
      rw [hv]
      exact ⟨projService_keys_nodup v, rfl⟩
  intro k
  constructor
  · rw [hreg, hpats]
    unfold reduceServices reducePatterns
    rw [containsKey_foldl_reduceStep, containsKey_foldl_setKey (fun p => fieldOf p.2 "regex")]
  · rw [hreg, hpats]
    unfold reduceServices reducePatterns
    rw [foldl_reduceStep_lookup, foldl_setKey_lookup (fun p => fieldOf p.2 "regex")]
    cases hf : (baseEntries defaults services ++ user).filter (fun p => p.1 == k) with
    | nil => rfl
    | cons p0 occs =>
      rcases List.eq_nil_or_concat occs with hocc | ⟨L, q, hocc⟩
      · subst hocc
        rfl
      · subst hocc
        simp only [List.concat_eq_append] at hf ⊢
        have hlast : lastBinding (p0 :: (L ++ [q])) = some q := by
          rw [show p0 :: (L ++ [q]) = (p0 :: L) ++ [q] from rfl, lastBinding_concat]
        have hq : q ∈ baseEntries defaults services ++ user := by
          apply List.mem_of_mem_filter (p := fun p => p.1 == k)
          rw [hf]
          exact List.mem_cons_of_mem _ (List.mem_append.mpr (Or.inr (List.mem_singleton.mpr rfl)))
        obtain ⟨hqnd, hqck⟩ := hgood q hq
        have hrun : assignRun p0.2 (L ++ [q])
            = objectAssign (assignRun p0.2 L) q.2 := by
          rw [assignRun_append]
          rfl
        have hfield : fieldOf (assignRun p0.2 (L ++ [q])) "regex"
            = fieldOf q.2 "regex" := by
          rw [hrun, fieldOf_objectAssign _ _ _ hqnd, if_pos hqck]
        rw [hlast]
        simp only [Option.map_some]
        rw [← hfield]
        rfl

/-- C8 (witness): the projection at a one-default, one-custom-override
configuration. -/
theorem patterns_project_registry_witness :
    containsKey [("A", sampleRegex)] "A"
      = containsKey [("A", JSVal.obj [("regex", sampleRegex), ("embedUrl", .str "e"),
          ("html", .str "h"), ("height", .undefined), ("width", .undefined), ("id", .undefined)])] "A"
    ∧ lookupField [("A", sampleRegex)] "A"
      = (lookupField [("A", JSVal.obj [("regex", sampleRegex), ("embedUrl", .str "e"),
          ("html", .str "h"), ("height", .undefined), ("width", .undefined), ("id", .undefined)])]
          "A").map (fun v => fieldOf v "regex") := by
  have h := patterns_project_registry
    [("A", .obj [("regex", sampleRegex), ("embedUrl", .str "d"),
      ("html", .str "m"), ("height", .num (.fin 100))])]
    [("A", .obj [("regex", sampleRegex), ("embedUrl", .str "e"), ("html", .str "h")])]
    [("A", JSVal.obj [("regex", sampleRegex), ("embedUrl", .str "e"),
      ("html", .str "h"), ("height", .undefined), ("width", .undefined), ("id", .undefined)])]
    [("A", sampleRegex)]
    (by
      intro p hpm
      rw [List.mem_singleton.mp hpm]
      exact ⟨by decide, rfl⟩)
    rfl
  exact h "A"

theorem eq_undefined_of_isUndefined (v : JSVal) (h : isUndefined v = true) : v = .undefined := by
  cases v
  case undefined => rfl
  all_goals exact absurd h (by intro hh; exact Bool.noConfusion hh)

theorem dataSet_obj_not_error (old : BlockData) (fs : List (String × JSVal)) :
    ∀ err, dataSet old (.obj fs) ≠ .error err := by
  intro err h
  unfold dataSet at h
  rw [if_pos] at h
  · exact Except.noConfusion h
  · rfl

/-- Evaluation of the resolver body on a rule whose `regex` is a RegExp
and whose `embedUrl` is a string: the outcome is decided by
`regex.exec(url)` — `null` makes `.slice(1)` throw, a match array
produces the object literal assigned to `this.data`, with the resource
id from `id(groups)` when `id` is a function and from the default
shift-extractor when `id` is absent. -/
theorem performServices_eval (reg : Entries) (svc url : String) (r : JSVal)
    (e : String → Option (List String)) (tmpl : String)
    (hlk : lookupField reg svc = some r)
    (hre : fieldOf r "regex" = .regex e)
    (hs : fieldOf r "embedUrl" = .str tmpl)
    (hid : fieldOf r "id" = .undefined ∨ ∃ f, fieldOf r "id" = .func f) :
    performServices reg svc url =
      match e url with
      | none => .error .typeError
      | some arr =>
          .ok (.obj [("service", .str svc), ("source", .str url),
            ("embed", .str (replaceAll tmpl placeholderToken
              (match fieldOf r "id" with
               | .func f => f (arr.drop 1)
               | _ => jsShift (arr.drop 1)))),
            ("width", fieldOf r "width"), ("height", fieldOf r "height")]) := by
  have hnotnull : isNull r = false := by
    cases r
    case null => simp [fieldOf] at hre
    all_goals rfl
  unfold performServices
  rw [hlk]
  simp only [hnotnull, Bool.false_eq_true, if_false, bind_ok_eq]
  rw [hre]
  simp only [bind_ok_eq]
  cases he : e url with
  | none => rfl
  | some arr =>
    simp only [bind_ok_eq]
    rw [hs]
    simp only [bind_ok_eq]
    rcases hid with hid | ⟨f, hid⟩ <;> rw [hid] <;> rfl

/-- C6: for a registry whose entries are well-formed rules (pattern a
RegExp, embedTemplate a string, extractId absent or callable — the §3
invariant of every composed registry), a dispatched resolution raises
exactly when the service key is absent from the registry (the reference
`UnknownServiceError`: destructuring `undefined` throws) or when the
rule's pattern does not match the URL (the reference `NoMatchError`:
`null.slice(1)` throws); on either failure the block state is never
assigned, because the throw precedes the `this.data` assignment. -/
theorem resolver_raises_iff_unknown_or_no_match (reg : Entries) (svc url : String)
    (old : BlockData)
    (hwf : ∀ p ∈ reg, (∃ e, fieldOf p.2 "regex" = .regex e)
      ∧ (∃ s, fieldOf p.2 "embedUrl" = .str s)
      ∧ (fieldOf p.2 "id" = .undefined ∨ ∃ f, fieldOf p.2 "id" = .func f)) :
    (∃ err, performServicesStep reg svc url old = .error err)
      ↔ (lookupField reg svc = none
          ∨ ∃ r e, lookupField reg svc = some r ∧ fieldOf r "regex" = .regex e
              ∧ e url = none) := by
  cases hlk : lookupField reg svc with
  | none =>
    have hperf : performServices reg svc url = .error .typeError := by
      unfold performServices
      rw [hlk]
      rfl
    have hstep : performServicesStep reg svc url old = .error .typeError := by
      unfold performServicesStep
      rw [hperf]
      rfl
    exact ⟨fun _ => Or.inl rfl, fun _ => ⟨.typeError, hstep⟩⟩
  | some r =>
    obtain ⟨⟨e, hre⟩, ⟨s, hs⟩, hid⟩ := hwf (svc, r) (mem_of_lookupField_eq_some _ _ _ hlk)
    have heval := performServices_eval reg svc url r e s hlk hre hs hid
    cases he : e url with
    | none =>
      have hperf : performServices reg svc url = .error .typeError := by
        rw [heval, he]
      have hstep : performServicesStep reg svc url old = .error .typeError := by
        unfold performServicesStep
        rw [hperf]
        rfl
      exact ⟨fun _ => Or.inr ⟨r, e, rfl, hre, he⟩, fun _ => ⟨.typeError, hstep⟩⟩
    | some arr =>
      have hperf : performServices reg svc url
          = .ok (.obj [("service", .str svc), ("source", .str url),
              ("embed", .str (replaceAll s placeholderToken
                (match fieldOf r "id" with
                 | .func f => f (arr.drop 1)
                 | _ => jsShift (arr.drop 1)))),
              ("width", fieldOf r "width"), ("height", fieldOf r "height")]) := by
        rw [heval, he]
      have hstep2 : performServicesStep reg svc url old
          = dataSet old (.obj [("service", .str svc), ("source", .str url),
              ("embed", .str (replaceAll s placeholderToken
                (match fieldOf r "id" with
                 | .func f => f (arr.drop 1)
                 | _ => jsShift (arr.drop 1)))),
              ("width", fieldOf r "width"), ("height", fieldOf r "height")]) := by
        unfold performServicesStep
        rw [hperf, bind_ok_eq]
      constructor
      · rintro ⟨err, herr⟩
        rw [hstep2] at herr
        exact absurd herr (dataSet_obj_not_error old _ err)
      · rintro (h | ⟨r2, e2, hr2, hre2, hnone⟩)
        · exact Option.noConfusion h
        · injection hr2 with hr2
          subst hr2
          have hre3 : JSVal.regex e = .regex e2 := hre.symm.trans hre2
          injection hre3 with hee
          subst hee
          rw [he] at hnone
          exact Option.noConfusion hnone

/-- C6 (witness): at a one-rule registry, resolution of an unknown
service key raises, and resolution of a matching URL does not. -/
theorem resolver_raises_iff_unknown_or_no_match_witness :
    ((∃ err, performServicesStep
        [("x", JSVal.obj [("regex", idPatternVal),
          ("embedUrl", .str "https://x/<%= remote_id %>"),
          ("html", .str "<iframe></iframe>")])]
        "y" "http://a?id=abc123" emptyData = .error err)
      ↔ (lookupField [("x", JSVal.obj [("regex", idPatternVal),
            ("embedUrl", .str "https://x/<%= remote_id %>"),
            ("html", .str "<iframe></iframe>")])] "y" = none
          ∨ ∃ r e, lookupField [("x", JSVal.obj [("regex", idPatternVal),
              ("embedUrl", .str "https://x/<%= remote_id %>"),
              ("html", .str "<iframe></iframe>")])] "y" = some r
              ∧ fieldOf r "regex" = .regex e ∧ e "http://a?id=abc123" = none)) := by
  apply resolver_raises_iff_unknown_or_no_match
  intro p hpm
  rw [List.mem_singleton.mp hpm]
  exact ⟨⟨fun u => execIdPattern u.data, rfl⟩, ⟨"https://x/<%= remote_id %>", rfl⟩,
    Or.inl rfl⟩

/-- C3 (counterexample): with the rule of the claim — pattern
`/id=(\w+)/` and embedTemplate the literal string `"https://x/<id>"` —
resolving `"http://a?id=abc123"` leaves the template unchanged, because
the code's placeholder token is `<%= remote_id %>`, not `<id>`: the
embed is `"https://x/<id>"`, not `"https://x/abc123"`. -/
theorem resolve_literal_id_template_not_substituted :
    performServices
        [("x", .obj [("regex", idPatternVal), ("embedUrl", .str "https://x/<id>"),
          ("html", .str "<iframe></iframe>")])]
        "x" "http://a?id=abc123"
      = .ok (.obj [("service", .str "x"), ("source", .str "http://a?id=abc123"),
          ("embed", .str "https://x/<id>"), ("width", .undefined), ("height", .undefined)])
    ∧ ("https://x/<id>" : String) ≠ "https://x/abc123" :=
  ⟨rfl, by decide⟩

/-- C3 (amended): for a service key present in the registry whose rule
pattern matches the URL, the resolver computes the resource id as
`extractId(groups)` when `extractId` is present and as the default
shift of the capture groups otherwise, substitutes it for every
occurrence of the placeholder token `<%= remote_id %>` (not `<id>`) in
the embedTemplate, and produces the record `{service, source: url,
embed, width, height}` from the rule's width and height. -/
theorem resolve_substitutes_placeholder (reg : Entries) (svc url : String) (r : JSVal)
    (e : String → Option (List String)) (tmpl : String) (arr : List String)
    (hlk : lookupField reg svc = some r)
    (hre : fieldOf r "regex" = .regex e)
    (hs : fieldOf r "embedUrl" = .str tmpl)
    (hexec : e url = some arr) :
    (fieldOf r "id" = .undefined →
      performServices reg svc url = .ok (.obj [("service", .str svc), ("source", .str url),
        ("embed", .str (replaceAll tmpl placeholderToken (jsShift (arr.drop 1)))),
        ("width", fieldOf r "width"), ("height", fieldOf r "height")]))
    ∧ (∀ f, fieldOf r "id" = .func f →
      performServices reg svc url = .ok (.obj [("service", .str svc), ("source", .str url),
        ("embed", .str (replaceAll tmpl placeholderToken (f (arr.drop 1)))),
        ("width", fieldOf r "width"), ("height", fieldOf r "height")])) := by
  constructor
  · intro hid
    have h := (performServices_eval reg svc url r e tmpl hlk hre hs (Or.inl hid)).trans
      (by rw [hexec])
    rw [hid] at h
    exact h
  · intro f hid
    have h := (performServices_eval reg svc url r e tmpl hlk hre hs
      (Or.inr ⟨f, hid⟩)).trans (by rw [hexec])
    rw [hid] at h
    exact h

/-- C3 (witness): the resolution round-trip with the code's actual
placeholder token: pattern `/id=(\w+)/`, embedTemplate
`"https://x/<%= remote_id %>"` and url `"http://a?id=abc123"` produce
embed `"https://x/abc123"`. -/
theorem resolve_substitutes_placeholder_witness :
    performServices
        [("x", JSVal.obj [("regex", idPatternVal),
          ("embedUrl", .str "https://x/<%= remote_id %>"),
          ("html", .str "<iframe></iframe>")])]
        "x" "http://a?id=abc123"
      = .ok (.obj [("service", .str "x"), ("source", .str "http://a?id=abc123"),
          ("embed", .str "https://x/abc123"), ("width", .undefined), ("height", .undefined)]) := by
  have h := (resolve_substitutes_placeholder
    [("x", JSVal.obj [("regex", idPatternVal),
      ("embedUrl", .str "https://x/<%= remote_id %>"),
      ("html", .str "<iframe></iframe>")])]
    "x" "http://a?id=abc123"
    (JSVal.obj [("regex", idPatternVal),
      ("embedUrl", .str "https://x/<%= remote_id %>"),
      ("html", .str "<iframe></iframe>")])
    (fun u => execIdPattern u.data)
    "https://x/<%= remote_id %>"
    ["id=abc123", "abc123"]
    rfl rfl rfl rfl).1 rfl
  exact h.trans rfl

/-- C7 (counterexample): assigning `{width: 0}` to a state whose width
is `100` does not overwrite the explicitly supplied key — `0` is falsy,
so `width || this.data.width` keeps the previous `100`. -/
theorem data_setter_falsy_width_not_overwritten :
    dataSet ⟨.undefined, .undefined, .undefined, .num (.fin 100), .undefined, .undefined⟩
        (.obj [("width", .num (.fin 0))])
      = .ok ⟨.undefined, .undefined, .undefined, .num (.fin 100), .undefined, .str ""⟩
    ∧ JSVal.num (.fin 100) ≠ .num (.fin 0) :=
  ⟨rfl, by simp⟩

/-- C7 (amended): assigning a non-object raises the invalid-data error;
assigning an object rebuilds the state field by field where a supplied
key overwrites the previous value only when the supplied value is
truthy — falsy supplied values (and absent keys, which read as
`undefined`) keep the previous value — and the caption falls back from
the supplied value to the previous caption to the empty string. -/
theorem data_setter_truthy_merge (old : BlockData) (d : JSVal) :
    (isObjectInstance d = false → dataSet old d = .error .invalidData)
    ∧ (isObjectInstance d = true →
        dataSet old d = .ok
          ⟨if truthy (fieldOf d "service") = true then fieldOf d "service" else old.service,
           if truthy (fieldOf d "source") = true then fieldOf d "source" else old.source,
           if truthy (fieldOf d "embed") = true then fieldOf d "embed" else old.embed,
           if truthy (fieldOf d "width") = true then fieldOf d "width" else old.width,
           if truthy (fieldOf d "height") = true then fieldOf d "height" else old.height,
           if truthy (fieldOf d "caption") = true then fieldOf d "caption"
           else if truthy old.caption = true then old.caption else .str ""⟩) := by
  constructor
  · intro h
    unfold dataSet
    rw [if_neg]
    rw [h]
    exact Bool.false_ne_true
  · intro h
    have hcap : jsOr (jsOr (if isUndefined (fieldOf d "caption") = true then .str ""
        else fieldOf d "caption") old.caption) (.str "")
        = (if truthy (fieldOf d "caption") = true then fieldOf d "caption"
            else if truthy old.caption = true then old.caption else .str "") := by
      by_cases hu : isUndefined (fieldOf d "caption") = true
      · rw [if_pos hu, eq_undefined_of_isUndefined _ hu]
        simp [jsOr, truthy]
      · rw [if_neg hu]
        by_cases ht : truthy (fieldOf d "caption") = true
        · simp [jsOr, ht]
        · by_cases hto : truthy old.caption = true
          · simp [jsOr, eq_false_of_ne_true ht, hto]
          · simp [jsOr, eq_false_of_ne_true ht, eq_false_of_ne_true hto]
    unfold dataSet
    rw [if_pos h]
    show Except.ok (⟨jsOr (fieldOf d "service") old.service,
      jsOr (fieldOf d "source") old.source, jsOr (fieldOf d "embed") old.embed,
      jsOr (fieldOf d "width") old.width, jsOr (fieldOf d "height") old.height,
      jsOr (jsOr (if isUndefined (fieldOf d "caption") = true then JSVal.str ""
        else fieldOf d "caption") old.caption) (JSVal.str "")⟩ : BlockData) = _
    rw [hcap]
    rfl

/-- C7 (witness): partial update at a concrete state — the supplied
truthy `embed` overwrites, unspecified fields keep their previous
values. -/
theorem data_setter_truthy_merge_witness :
    isObjectInstance (.obj [("embed", JSVal.str "E")]) = true
    ∧ dataSet ⟨.str "svc", .str "src", .str "old", .undefined, .undefined, .str "cap"⟩
        (.obj [("embed", JSVal.str "E")])
      = .ok ⟨.str "svc", .str "src", .str "E", .undefined, .undefined, .str "cap"⟩ := by
  refine ⟨rfl, ?_⟩
  exact ((data_setter_truthy_merge
    ⟨.str "svc", .str "src", .str "old", .undefined, .undefined, .str "cap"⟩
    (.obj [("embed", JSVal.str "E")])).2 rfl).trans (by rfl)

end EmbedTool
